import Mathlib

/-!
Verification development for the multi-raft replication core of a
distributed transactional key-value store (tikv).

The development shallowly embeds, in Lean 4, the parts of the code that the
checked properties speak about:

* `DbVector` — the `RocksDBVector` byte-vector wrapper
  (`components/engine_rocks/src/db_vector.rs`).
* `Meter` — `TestSuite::merge_records` and `TestSuite::nonblock_receiver_all`
  of the resource-metering test suite
  (`tests/integrations/resource_metering/test_suite/mod.rs`).
* `RegionInv`, `ApplyFsm`, `ReadyFlow`, `Epoch`, `Snap`, `Propose`, `Sched` —
  the rfstore peer / apply / storage / router machinery.  The rfstore crate in
  the sources consists only of module declarations (`store/mod.rs` declares
  `peer_fsm`, `apply`, `peer_storage`, `worker`, ... and re-exports them); the
  bodies of those modules are not present, so these components are modelled
  from the specification, as marked on each definition.
-/

namespace DbVector

/-- Byte strings are modelled as lists of naturals. -/
abbrev Bytes := List Nat

/-- The raw vector handle returned by the storage backend
(`rocksdb::DBVector`), carrying its byte content. -/
structure RawDBVector where
  bytes : Bytes
deriving DecidableEq

/-- The wrapper `pub struct RocksDBVector(RawDBVector)`. -/
structure RocksDBVector where
  raw : RawDBVector
deriving DecidableEq

/-- `RocksDBVector::from_raw(raw) = RocksDBVector(raw)`. -/
def from_raw (raw : RawDBVector) : RocksDBVector := ⟨raw⟩

/-- `Deref::deref`: `&self.0`, the byte content of the wrapped raw vector. -/
def deref (v : RocksDBVector) : Bytes := v.raw.bytes

/-- `PartialEq<&[u8]>::eq`: `**rhs == **self`, byte-slice equality. -/
def eqBytes (v : RocksDBVector) (rhs : Bytes) : Bool := rhs == deref v

end DbVector

namespace Meter

/-- A `kvproto::resource_usage_agent::ResourceUsageRecord`: a resource-group
tag (raw bytes) with parallel lists of timestamps (`u64`) and cpu times
(`u32`). -/
structure ResourceUsageRecord where
  resource_group_tag : List Nat
  record_list_timestamp_sec : List Nat
  record_list_cpu_time_ms : List Nat
deriving DecidableEq

/-- The `HashMap<String, (Vec<u64>, Vec<u32>)>` of the test suite, modelled
semantically as a map from tag strings to pairs of lists. -/
def RecMap := String → Option (List Nat × List Nat)

/-- `HashMap::new()`. -/
def RecMap.empty : RecMap := fun _ => none

/-- `HashMap::insert` semantics: point update. -/
def RecMap.update (m : RecMap) (k : String) (v : List Nat × List Nat) :
    RecMap :=
  fun k2 => if k2 = k then some v else m k2

/-- One iteration of the loop body of `TestSuite::merge_records`: decode the
tag with `String::from_utf8_lossy` (passed in as `decode`), fetch or create
the entry with `entry(tag).or_insert((vec![], vec![]))`, and extend both
lists. -/
def mergeOne (decode : List Nat → String) (m : RecMap)
    (r : ResourceUsageRecord) : RecMap :=
  let tag := decode r.resource_group_tag
  let p := (m tag).getD ([], [])
  RecMap.update m tag
    (p.1 ++ r.record_list_timestamp_sec, p.2 ++ r.record_list_cpu_time_ms)

/-- `TestSuite::merge_records(map, records)`: fold the loop body over the
records in input order. -/
def merge_records (decode : List Nat → String) (m : RecMap)
    (records : List ResourceUsageRecord) : RecMap :=
  records.foldl (mergeOne decode) m

/-- The record channel, modelled as the list of queued batches in arrival
order. -/
abbrev Channel := List (List ResourceUsageRecord)

/-- Crossbeam `Receiver::try_recv`: removes and returns the first queued
batch if one exists, otherwise reports the channel empty. -/
def try_recv (chan : Channel) :
    Option (List ResourceUsageRecord) × Channel :=
  match chan with
  | [] => (none, [])
  | b :: rest => (some b, rest)

/-- `TestSuite::nonblock_receiver_all`: `for r in self.rx.try_recv()`
iterates the `Result` of `try_recv`, which yields the received batch at most
once; so at most one batch is removed and merged into a fresh map.  Returns
the map together with the remaining channel content. -/
def nonblock_receiver_all (decode : List Nat → String) (chan : Channel) :
    RecMap × Channel :=
  match try_recv chan with
  | (none, rest) => (RecMap.empty, rest)
  | (some b, rest) => (merge_records decode RecMap.empty b, rest)

/-- The chosen field of the records of `rs` whose decoded tag is `t`,
concatenated in input order. -/
def catField (sel : ResourceUsageRecord → List Nat)
    (decode : List Nat → String) (t : String)
    (rs : List ResourceUsageRecord) : List Nat :=
  (rs.filter (fun r => decode r.resource_group_tag = t)).foldr
    (fun r acc => sel r ++ acc) []

/-- The timestamps of the records of `rs` whose decoded tag is `t`,
concatenated in input order. -/
def tsOf : (List Nat → String) → String → List ResourceUsageRecord →
    List Nat :=
  catField (fun r => r.record_list_timestamp_sec)

/-- The cpu times of the records of `rs` whose decoded tag is `t`,
concatenated in input order. -/
def cpuOf : (List Nat → String) → String → List ResourceUsageRecord →
    List Nat :=
  catField (fun r => r.record_list_cpu_time_ms)

end Meter

namespace Epoch

/-- Modelled from the spec: the region epoch pair `(version, conf_version)`
of the rfstore region metadata (the rfstore `peer`/`util` modules are only
declared in `store/mod.rs`, their bodies are missing).  `version` versions
the key range, `conf_version` the membership. -/
structure RegionEpoch where
  version : Nat
  conf_ver : Nat
deriving DecidableEq

/-- Componentwise order on epochs. -/
def epochLe (a b : RegionEpoch) : Bool :=
  a.version ≤ b.version && a.conf_ver ≤ b.conf_ver

/-- Strictly-less on epochs: componentwise at most, and not equal.  An
incoming epoch strictly less than the current one is stale. -/
def epochLt (a b : RegionEpoch) : Bool :=
  epochLe a b && a ≠ b

/-- Modelled from the spec: the administrative commands that are the only
legal mutation path of a region epoch — split and merge bump `version`,
conf change bumps `conf_ver`, log compaction leaves the epoch alone. -/
inductive AdminCmd
  | split
  | merge
  | confChange
  | compact
deriving DecidableEq

/-- Modelled from the spec: the epoch after applying an administrative
command. -/
def applyAdmin (e : RegionEpoch) : AdminCmd → RegionEpoch
  | .split => ⟨e.version + 1, e.conf_ver⟩
  | .merge => ⟨e.version + 1, e.conf_ver⟩
  | .confChange => ⟨e.version, e.conf_ver + 1⟩
  | .compact => e

/-- An inbound message or proposal: the epoch it carries, arbitrary other
content, and the administrative command it would apply if accepted. -/
structure Message where
  epoch : RegionEpoch
  payload : Nat
  cmd : Option AdminCmd
deriving DecidableEq

/-- Outcome of the epoch check on an inbound message. -/
inductive Outcome
  | rejectedEpoch
  | accepted
deriving DecidableEq

/-- Modelled from the spec: handling an inbound message or proposal against
the current region epoch — a message carrying an epoch strictly less than the
current epoch is rejected without touching the region; an accepted message
may apply its administrative command. -/
def handle_msg (cur : RegionEpoch) (m : Message) : Outcome × RegionEpoch :=
  if epochLt m.epoch cur then (.rejectedEpoch, cur)
  else
    match m.cmd with
    | some c => (.accepted, applyAdmin cur c)
    | none => (.accepted, cur)

/-- The region epoch after handling a sequence of inbound messages. -/
def run (cur : RegionEpoch) (msgs : List Message) : RegionEpoch :=
  msgs.foldl (fun c m => (handle_msg c m).2) cur

end Epoch

namespace RegionInv

/-- Modelled from the spec: the per-region progress counters kept by the
rfstore peer storage and apply state (the `peer_storage` and `apply` modules
are only declared in `store/mod.rs`, their bodies are missing):
`applied_index`, the raft `commit_index` of the hard state, and the index of
the last raft log entry. -/
structure RegionProgress where
  applied_index : Nat
  commit_index : Nat
  last_log_index : Nat
deriving DecidableEq

/-- Modelled from the spec: at bootstrap the counters start equal, at the
initial bootstrap index `i0`. -/
def start (i0 : Nat) : RegionProgress := ⟨i0, i0, i0⟩

/-- Modelled from the spec: the observable transitions of the counters of one
region.
* `append`: new log entries are persisted past the current tail;
* `truncAppend`: a leader with a higher term truncates the tail and rewrites
  it, never below the commit index (committed entries are never overwritten,
  the log-matching property);
* `advanceCommit`: the commit index advances, never past the last log entry;
* `applyTo`: the apply state advances, never past the commit index;
* `applySnapshot`: a snapshot at index `i` at or past the current applied
  index resets log, commit and apply state to `i`. -/
inductive Step : RegionProgress → RegionProgress → Prop
  | append (s : RegionProgress) (n : Nat) :
      Step s ⟨s.applied_index, s.commit_index, s.last_log_index + n⟩
  | truncAppend (s : RegionProgress) (newLast : Nat)
      (h : s.commit_index ≤ newLast) :
      Step s ⟨s.applied_index, s.commit_index, newLast⟩
  | advanceCommit (s : RegionProgress) (c : Nat)
      (h1 : s.commit_index ≤ c) (h2 : c ≤ s.last_log_index) :
      Step s ⟨s.applied_index, c, s.last_log_index⟩
  | applyTo (s : RegionProgress) (a : Nat)
      (h1 : s.applied_index ≤ a) (h2 : a ≤ s.commit_index) :
      Step s ⟨a, s.commit_index, s.last_log_index⟩
  | applySnapshot (s : RegionProgress) (i : Nat)
      (h : s.applied_index ≤ i) :
      Step s ⟨i, i, i⟩

/-- The states of a region observable in some execution from bootstrap. -/
inductive Reachable (i0 : Nat) : RegionProgress → Prop
  | start : Reachable i0 (start i0)
  | step {s s2 : RegionProgress} :
      Reachable i0 s → Step s s2 → Reachable i0 s2

/-- The claimed invariant: `applied_index ≤ commit_index ≤ last_log_index`. -/
def Inv (s : RegionProgress) : Prop :=
  s.applied_index ≤ s.commit_index ∧ s.commit_index ≤ s.last_log_index

instance (s : RegionProgress) : Decidable (Inv s) := by
  unfold Inv; infer_instance

end RegionInv

namespace ApplyFsm

abbrev Key := Nat

abbrev Value := Nat

/-- Modelled from the spec: a normal command of a committed raft log entry
performs a keyed write against the backend (the rfstore `apply` module is
only declared in `store/mod.rs`, its body is missing). -/
inductive Cmd
  | put (k : Key) (v : Value)
  | del (k : Key)
deriving DecidableEq

/-- The opaque storage backend for one region, modelled as a canonical
association list: a key occurs at most once, newest write first. -/
abbrev Backend := List (Key × Value)

/-- Applying one keyed write to the backend. -/
def applyCmd (b : Backend) : Cmd → Backend
  | .put k v => (k, v) :: b.filter (fun p => p.1 ≠ k)
  | .del k => b.filter (fun p => p.1 ≠ k)

/-- A committed raft log entry `(term, index, payload)`. -/
structure Entry where
  term : Nat
  index : Nat
  cmd : Cmd
deriving DecidableEq

/-- The apply-side state of one region: the backend contents and the
persisted apply state `(applied_index, applied_term)`. -/
structure ApplyState where
  backend : Backend
  applied_index : Nat
  applied_term : Nat
deriving DecidableEq

/-- Modelled from the spec: applying one committed entry.  An entry whose
index is at most the persisted `applied_index` is a no-op — crash recovery
may replay from a checkpoint before the last applied index; otherwise the
command is applied and the apply state advances to the entry. -/
def applyEntry (s : ApplyState) (e : Entry) : ApplyState :=
  if e.index ≤ s.applied_index then s
  else ⟨applyCmd s.backend e.cmd, e.index, e.term⟩

/-- Modelled from the spec: `handle_committed(entries)` applies each entry in
order. -/
def handle_committed (s : ApplyState) (entries : List Entry) : ApplyState :=
  entries.foldl applyEntry s

end ApplyFsm

namespace ReadyFlow

/-- A raft log entry as referenced by persistence and messages. -/
structure Entry where
  term : Nat
  index : Nat
deriving DecidableEq

/-- Modelled from the spec: the raft hard state `(term, vote, commit_index)`
(the rfstore `peer_storage` module body is missing from the sources). -/
structure HardState where
  term : Nat
  vote : Nat
  commit_index : Nat
deriving DecidableEq

/-- An outbound raft message: the hard-state fields it references (term and
the commit notification it carries) and the log entries it carries. -/
structure Msg where
  term : Nat
  commit : Nat
  entries : List Entry
deriving DecidableEq

/-- Modelled from the spec: a `Ready` batch — the per-step output of a raft
instance: hard state and entries to persist, and messages to send. -/
structure ReadyRec where
  hs : HardState
  entries : List Entry
  msgs : List Msg
deriving DecidableEq

/-- The durable (flushed) raft storage state of one region: the persisted
hard state and the last persisted log index. -/
structure Durable where
  hs : HardState
  last_index : Nat
deriving DecidableEq

/-- Modelled from the spec: `append(entries, hard_state)` persists the
entries of a ready and its hard state together, durably. -/
def append (d : Durable) (rd : ReadyRec) : Durable :=
  ⟨rd.hs, rd.entries.foldl (fun m e => max m e.index) d.last_index⟩

/-- The observable events of processing ready batches: a durable persist of a
ready, or the release of one outbound message. -/
inductive Event
  | persist (rd : ReadyRec)
  | send (m : Msg)
deriving DecidableEq

/-- Modelled from the spec: processing one ready releases its messages only
after its hard state and entries are durable — the persist event comes first,
then the send events. -/
def handleReadyEvents (rd : ReadyRec) : List Event :=
  Event.persist rd :: rd.msgs.map Event.send

/-- The event timeline of an execution processing a list of ready batches. -/
def trace (rds : List ReadyRec) : List Event :=
  (rds.map handleReadyEvents).flatten

/-- The durable state after a list of events (send events are not durable
writes). -/
def runEvents (d : Durable) : List Event → Durable
  | [] => d
  | Event.persist rd :: evs => runEvents (append d rd) evs
  | Event.send _ :: evs => runEvents d evs

/-- The hard state and entries a message references are durable in `d`: its
commit notification is at most the persisted commit index, its term at most
the persisted term, and every entry it carries is at or below the last
persisted index. -/
def Covers (d : Durable) (m : Msg) : Prop :=
  m.commit ≤ d.hs.commit_index ∧ m.term ≤ d.hs.term ∧
    ∀ e ∈ m.entries, e.index ≤ d.last_index

instance (d : Durable) (m : Msg) : Decidable (Covers d m) := by
  unfold Covers; infer_instance

/-- Modelled from the spec: the messages of each ready are produced by the
raft step that produced the ready, so they reference the hard state of that
ready and entries that `append` makes durable: the messages of each ready are
covered by
the durable state right after its own persist. -/
def WFReadies : Durable → List ReadyRec → Prop
  | _, [] => True
  | d, rd :: rds =>
      (∀ m ∈ rd.msgs, Covers (append d rd) m) ∧ WFReadies (append d rd) rds

instance (d : Durable) (rds : List ReadyRec) : Decidable (WFReadies d rds) :=
  match rds with
  | [] => by unfold WFReadies; infer_instance
  | rd :: rds =>
      have : Decidable (WFReadies (append d rd) rds) := instDecidableWFReadies _ _
      by unfold WFReadies; infer_instance

/-- Every send event in the timeline is covered by the durable state at the
moment it is released. -/
def SendsCovered : Durable → List Event → Prop
  | _, [] => True
  | d, Event.persist rd :: evs => SendsCovered (append d rd) evs
  | d, Event.send m :: evs => Covers d m ∧ SendsCovered d evs

end ReadyFlow

namespace Snap

/-- Modelled from the spec: a region descriptor — id, key range, epoch (the
rfstore `region_snapshot`/`peer_storage` module bodies are missing from the
sources). -/
structure RegionDesc where
  id : Nat
  start_key : List Nat
  end_key : List Nat
  epoch : Epoch.RegionEpoch
deriving DecidableEq

/-- Modelled from the spec: the durable per-region state a snapshot covers:
the backend contents for the region and the apply metadata. -/
structure PeerDisk where
  backend : ApplyFsm.Backend
  applied_index : Nat
  applied_term : Nat
  region : RegionDesc
deriving DecidableEq

/-- Modelled from the spec: a snapshot — a point-in-time serialization of the
backend state of a region plus its metadata (region descriptor, applied
index/term). -/
structure Snapshot where
  data : ApplyFsm.Backend
  idx : Nat
  term : Nat
  region : RegionDesc
deriving DecidableEq

/-- Modelled from the spec: `build_snapshot()` serializes the backend state
plus the applied index/term and region descriptor. -/
def build_snapshot (p : PeerDisk) : Snapshot :=
  ⟨p.backend, p.applied_index, p.applied_term, p.region⟩

/-- Modelled from the spec: `apply_snapshot(snapshot)` replaces the backend
state and apply/raft metadata with the content of the snapshot. -/
def apply_snapshot (s : Snapshot) : PeerDisk :=
  ⟨s.data, s.idx, s.term, s.region⟩

/-- The on-disk layout during a snapshot apply, staging-then-rename: the
current committed region state plus an optional staging area. -/
structure Disk where
  main : PeerDisk
  staging : Option Snapshot
deriving DecidableEq

/-- Phase one of the staged apply: write the snapshot into the staging area,
leaving the committed state untouched. -/
def stage (d : Disk) (s : Snapshot) : Disk := ⟨d.main, some s⟩

/-- Phase two: the atomic rename installs the staged snapshot as the
committed state and clears the staging marker. -/
def rename (d : Disk) : Disk :=
  match d.staging with
  | some s => ⟨apply_snapshot s, none⟩
  | none => d

/-- The crash points of a staged snapshot apply: before anything is written,
after staging but before the rename, and after the rename. -/
inductive CrashPoint
  | beforeStage
  | afterStage
  | afterRename
deriving DecidableEq

/-- The disk content found after a crash at the given point while applying
snapshot `s` to disk `d`. -/
def diskAtCrash (d : Disk) (s : Snapshot) : CrashPoint → Disk
  | .beforeStage => d
  | .afterStage => stage d s
  | .afterRename => rename (stage d s)

/-- Modelled from the spec: recovery — a present staging marker means the
apply did not commit; it is rolled back by discarding the staging area, so
the recovered region state is always the committed `main`. -/
def recover (d : Disk) : PeerDisk := d.main

end Snap

namespace Propose

/-- The raft role of a peer. -/
inductive Role
  | leader
  | follower
  | candidate
deriving DecidableEq

/-- Modelled from the spec: the error taxonomy of the store (§7); the rfstore
`msg`/`cmd_resp` module bodies are missing from the sources. -/
inductive Error
  | notLeader
  | staleEpoch
  | proposalDropped
  | sendFailed
  | durabilityFailure
  | logMatchingViolation
deriving DecidableEq

/-- How an error propagates: returned to the caller for retry/redirect, or
escalated to process-level fatal handling. -/
inductive Severity
  | retryable
  | fatal
deriving DecidableEq

/-- Modelled from the spec: stale epoch, not-leader, proposal-queue-full and
send-failed are transient and returned to the caller; durability failures and
log-matching violations are fatal. -/
def classify : Error → Severity
  | .notLeader => .retryable
  | .staleEpoch => .retryable
  | .proposalDropped => .retryable
  | .sendFailed => .retryable
  | .durabilityFailure => .fatal
  | .logMatchingViolation => .fatal

/-- The peer state `propose` consults: role, current region epoch, and the
fill level and bound of the proposal queue. -/
structure PeerState where
  role : Role
  epoch : Epoch.RegionEpoch
  queue_len : Nat
  queue_cap : Nat
deriving DecidableEq

/-- A client command: the region epoch of the caller plus an opaque
payload. -/
structure Command where
  epoch : Epoch.RegionEpoch
  payload : Nat
deriving DecidableEq

/-- Modelled from the spec: `propose(command)` rejects with `NotLeader` if
the peer is not currently leader, with `StaleEpoch` if the epoch of the
caller is outdated, with `ProposalDropped` if the proposal queue is full;
otherwise the command is enqueued and its queue position returned. -/
def propose (p : PeerState) (c : Command) : Except Error Nat :=
  if p.role ≠ Role.leader then .error .notLeader
  else if Epoch.epochLt c.epoch p.epoch then .error .staleEpoch
  else if p.queue_cap ≤ p.queue_len then .error .proposalDropped
  else .ok p.queue_len

end Propose

namespace Sched

abbrev RegionId := Nat

abbrev WorkerId := Nat

/-- A queued unit of work for one region FSM: a proposal, an inbound step
message, or a tick, abstracted as an opaque payload. -/
abbrev Task := Nat

/-- Modelled from the spec: the state of the router/worker pool (the rfstore
`worker`/`peer_worker` module bodies are missing from the sources): per-region
FIFO mailboxes, per-region processed history, a ghost log of everything ever
enqueued per region, and the region each worker thread currently executes. -/
structure PoolState where
  mailbox : RegionId → List Task
  processed : RegionId → List Task
  enqueued : RegionId → List Task
  holds : WorkerId → Option RegionId

/-- Point update of a map. -/
def upd {A : Type} (f : Nat → A) (k : Nat) (v : A) : Nat → A :=
  fun k2 => if k2 = k then v else f k2

/-- Modelled from the spec: the transitions of the worker pool.
* `enqueue`: the router appends a task to the mailbox of a region;
* `claim`: an idle worker claims a region not currently claimed by any
  worker;
* `process`: the worker holding a region processes the head of its mailbox;
* `release`: a worker releases whatever it holds. -/
inductive Step : PoolState → PoolState → Prop
  | enqueue (s : PoolState) (r : RegionId) (t : Task) :
      Step s { s with
        mailbox := upd s.mailbox r (s.mailbox r ++ [t]),
        enqueued := upd s.enqueued r (s.enqueued r ++ [t]) }
  | claim (s : PoolState) (w : WorkerId) (r : RegionId)
      (hfree : s.holds w = none) (hexcl : ∀ w2, s.holds w2 ≠ some r) :
      Step s { s with holds := upd s.holds w (some r) }
  | process (s : PoolState) (w : WorkerId) (r : RegionId) (t : Task)
      (rest : List Task) (hh : s.holds w = some r)
      (hm : s.mailbox r = t :: rest) :
      Step s { s with
        mailbox := upd s.mailbox r rest,
        processed := upd s.processed r (s.processed r ++ [t]) }
  | release (s : PoolState) (w : WorkerId) :
      Step s { s with holds := upd s.holds w none }

/-- The empty pool: no queued work, no history, all workers idle. -/
def startPool : PoolState :=
  ⟨fun _ => [], fun _ => [], fun _ => [], fun _ => none⟩

/-- Pool states observable in some execution. -/
inductive Reachable : PoolState → Prop
  | start : Reachable startPool
  | step {s s2 : PoolState} : Reachable s → Step s s2 → Reachable s2

/-- No two worker threads execute the FSM of the same region concurrently. -/
def MutexInv (s : PoolState) : Prop :=
  ∀ w1 w2 r, s.holds w1 = some r → s.holds w2 = some r → w1 = w2

/-- Per-region FIFO: the processed history followed by the pending mailbox is
exactly the enqueue order, so tasks are processed in the order they were
enqueued. -/
def OrderInv (s : PoolState) : Prop :=
  ∀ r, s.processed r ++ s.mailbox r = s.enqueued r

end Sched

/-!
Theorems.  One theorem per checked claim (C1 .. C10), preceded by helper
lemmas where the claim needs them.
-/

/-- Claim C10: for every raw DB vector `raw` with byte content `b` and every
byte slice `s`, `RocksDBVector::from_raw(raw)` dereferences to exactly `b`,
and the `PartialEq` comparison `from_raw(raw) == &s` returns true if and only
if `b` equals `s` byte for byte. -/
theorem C10_db_vector_deref_and_eq (raw : DbVector.RawDBVector)
    (s : DbVector.Bytes) :
    DbVector.deref (DbVector.from_raw raw) = raw.bytes ∧
      (DbVector.eqBytes (DbVector.from_raw raw) s = true ↔ raw.bytes = s) := by
  refine ⟨rfl, ?_⟩
  show (s == raw.bytes) = true ↔ raw.bytes = s
  rw [beq_iff_eq]
  exact eq_comm

/-- Claim C8: `TestSuite::nonblock_receiver_all` removes and merges at most
one queued batch: on an empty channel it returns the empty map, and on a
non-empty channel it returns the merge of exactly the first queued batch,
leaving the later batches queued. -/
theorem C8_nonblock_receiver_all_one_batch (decode : List Nat → String)
    (b : List Meter.ResourceUsageRecord) (rest : Meter.Channel) :
    Meter.nonblock_receiver_all decode [] = (Meter.RecMap.empty, []) ∧
      Meter.nonblock_receiver_all decode (b :: rest) =
        (Meter.merge_records decode Meter.RecMap.empty b, rest) :=
  ⟨rfl, rfl⟩

/-- Claim C2: re-applying via `handle_committed` an entry whose index is at
most the persisted `applied_index` leaves the backend and apply state
unchanged, and applying the same committed entry twice produces the same
state as applying it once. -/
theorem C2_handle_committed_idempotent (s : ApplyFsm.ApplyState)
    (e : ApplyFsm.Entry) :
    (e.index ≤ s.applied_index → ApplyFsm.handle_committed s [e] = s) ∧
      ApplyFsm.handle_committed (ApplyFsm.handle_committed s [e]) [e] =
        ApplyFsm.handle_committed s [e] := by
  constructor
  · intro h
    show ApplyFsm.applyEntry s e = s
    unfold ApplyFsm.applyEntry
    simp [h]
  · show ApplyFsm.applyEntry (ApplyFsm.applyEntry s e) e =
      ApplyFsm.applyEntry s e
    unfold ApplyFsm.applyEntry
    by_cases h : e.index ≤ s.applied_index
    · simp [h]
    · simp [h]

/-- Witness for claim C2 at a concrete entry below the persisted applied
index: the replayed entry is a no-op. -/
theorem C2_handle_committed_idempotent_witness :
    (ApplyFsm.Entry.mk 1 3 (ApplyFsm.Cmd.put 1 2)).index ≤
        (ApplyFsm.ApplyState.mk [(7, 7)] 5 1).applied_index ∧
      ApplyFsm.handle_committed (ApplyFsm.ApplyState.mk [(7, 7)] 5 1)
          [ApplyFsm.Entry.mk 1 3 (ApplyFsm.Cmd.put 1 2)] =
        ApplyFsm.ApplyState.mk [(7, 7)] 5 1 :=
  ⟨by decide,
    (C2_handle_committed_idempotent (ApplyFsm.ApplyState.mk [(7, 7)] 5 1)
        (ApplyFsm.Entry.mk 1 3 (ApplyFsm.Cmd.put 1 2))).1 (by decide)⟩

/-- Claim C5: `build_snapshot()` followed by `apply_snapshot()` on a fresh
replica yields backend state, applied index/term and region metadata
identical to the source at snapshot time, and a crash at any point of the
staging-then-rename apply recovers either to the untouched old state or to
the fully applied snapshot, never to a partial state. -/
theorem C5_snapshot_roundtrip_and_atomic (src : Snap.PeerDisk) (d : Snap.Disk)
    (s : Snap.Snapshot) (cp : Snap.CrashPoint) :
    Snap.apply_snapshot (Snap.build_snapshot src) = src ∧
      (Snap.recover (Snap.diskAtCrash d s cp) = d.main ∨
        Snap.recover (Snap.diskAtCrash d s cp) = Snap.apply_snapshot s) := by
  refine ⟨rfl, ?_⟩
  cases cp
  · exact Or.inl rfl
  · exact Or.inl rfl
  · exact Or.inr rfl

/-- Claim C6: `propose(command)` returns `NotLeader` when the peer is not
leader, `StaleEpoch` when the epoch of the caller is outdated,
`ProposalDropped` when the proposal queue is full, and all three are
classified as retryable (returned to the caller, not escalated). -/
theorem C6_propose_rejections_retryable (p : Propose.PeerState)
    (c : Propose.Command) :
    (p.role ≠ Propose.Role.leader →
        Propose.propose p c = Except.error Propose.Error.notLeader) ∧
      (p.role = Propose.Role.leader →
        Epoch.epochLt c.epoch p.epoch = true →
        Propose.propose p c = Except.error Propose.Error.staleEpoch) ∧
      (p.role = Propose.Role.leader →
        Epoch.epochLt c.epoch p.epoch = false →
        p.queue_cap ≤ p.queue_len →
        Propose.propose p c = Except.error Propose.Error.proposalDropped) ∧
      Propose.classify Propose.Error.notLeader = Propose.Severity.retryable ∧
      Propose.classify Propose.Error.staleEpoch = Propose.Severity.retryable ∧
      Propose.classify Propose.Error.proposalDropped =
        Propose.Severity.retryable := by
  refine ⟨?_, ?_, ?_, rfl, rfl, rfl⟩
  · intro h
    unfold Propose.propose
    rw [if_pos h]
  · intro h1 h2
    unfold Propose.propose
    rw [if_neg (by simp [h1]), if_pos h2]
  · intro h1 h2 h3
    unfold Propose.propose
    rw [if_neg (by simp [h1]), if_neg (by simp [h2]), if_pos h3]

/-- Witness for claim C6: a follower peer rejects a concrete proposal with
`NotLeader`. -/
theorem C6_propose_rejections_retryable_witness :
    (Propose.PeerState.mk Propose.Role.follower ⟨1, 1⟩ 0 8).role ≠
        Propose.Role.leader ∧
      Propose.propose (Propose.PeerState.mk Propose.Role.follower ⟨1, 1⟩ 0 8)
          (Propose.Command.mk ⟨1, 1⟩ 0) =
        Except.error Propose.Error.notLeader :=
  ⟨by decide,
    (C6_propose_rejections_retryable
        (Propose.PeerState.mk Propose.Role.follower ⟨1, 1⟩ 0 8)
        (Propose.Command.mk ⟨1, 1⟩ 0)).1 (by decide)⟩

/-- Claim C1: in every execution from bootstrap, every observed region state
satisfies `applied_index ≤ commit_index ≤ last_log_index`. -/
theorem C1_region_progress_invariant (i0 : Nat) (s : RegionInv.RegionProgress)
    (h : RegionInv.Reachable i0 s) : RegionInv.Inv s := by
  induction h with
  | start => exact ⟨le_refl _, le_refl _⟩
  | step _ hstep ih =>
    cases hstep with
    | append n => exact ⟨ih.1, le_trans ih.2 (Nat.le_add_right _ _)⟩
    | truncAppend newLast h => exact ⟨ih.1, h⟩
    | advanceCommit c h1 h2 => exact ⟨le_trans ih.1 h1, h2⟩
    | applyTo a h1 h2 => exact ⟨h2, ih.2⟩
    | applySnapshot i h => exact ⟨le_refl _, le_refl _⟩

/-- Witness for claim C1: the state reached from bootstrap index 5 by
appending two entries and committing one of them satisfies the invariant. -/
theorem C1_region_progress_invariant_witness :
    RegionInv.Inv ⟨5, 6, 7⟩ :=
  C1_region_progress_invariant 5 ⟨5, 6, 7⟩
    (RegionInv.Reachable.step
      (RegionInv.Reachable.step RegionInv.Reachable.start
        (RegionInv.Step.append (RegionInv.start 5) 2))
      (RegionInv.Step.advanceCommit ⟨5, 5, 7⟩ 6 (by decide) (by decide)))

/-- The componentwise epoch order is reflexive. -/
theorem epochLe_refl (a : Epoch.RegionEpoch) : Epoch.epochLe a a = true := by
  simp [Epoch.epochLe]

/-- The componentwise epoch order is transitive. -/
theorem epochLe_trans {a b c : Epoch.RegionEpoch}
    (h1 : Epoch.epochLe a b = true) (h2 : Epoch.epochLe b c = true) :
    Epoch.epochLe a c = true := by
  simp only [Epoch.epochLe, Bool.and_eq_true, decide_eq_true_eq] at *
  exact ⟨le_trans h1.1 h2.1, le_trans h1.2 h2.2⟩

/-- Administrative commands never decrease the epoch. -/
theorem epochLe_applyAdmin (e : Epoch.RegionEpoch) (c : Epoch.AdminCmd) :
    Epoch.epochLe e (Epoch.applyAdmin e c) = true := by
  cases c <;> simp [Epoch.epochLe, Epoch.applyAdmin]

/-- Handling one inbound message never decreases the epoch. -/
theorem epochLe_handle_msg (cur : Epoch.RegionEpoch) (m : Epoch.Message) :
    Epoch.epochLe cur (Epoch.handle_msg cur m).2 = true := by
  unfold Epoch.handle_msg
  by_cases h : Epoch.epochLt m.epoch cur = true
  · rw [if_pos h]
    exact epochLe_refl cur
  · rw [if_neg h]
    cases m.cmd with
    | some c => exact epochLe_applyAdmin cur c
    | none => exact epochLe_refl cur

/-- Claim C4: the region epoch is monotonically non-decreasing across every
sequence of handled messages, and a message carrying an epoch strictly less
than the current region epoch is rejected with the region state unchanged,
regardless of its payload or command. -/
theorem C4_epoch_monotone_and_stale_rejected (cur : Epoch.RegionEpoch)
    (m : Epoch.Message) (msgs : List Epoch.Message) :
    (Epoch.epochLt m.epoch cur = true →
        Epoch.handle_msg cur m = (Epoch.Outcome.rejectedEpoch, cur)) ∧
      Epoch.epochLe cur (Epoch.run cur msgs) = true := by
  constructor
  · intro h
    unfold Epoch.handle_msg
    rw [if_pos h]
  · show Epoch.epochLe cur (Epoch.run cur msgs) = true
    induction msgs generalizing cur with
    | nil => exact epochLe_refl cur
    | cons m2 ms ih =>
      exact epochLe_trans (epochLe_handle_msg cur m2)
        (ih (Epoch.handle_msg cur m2).2)

/-- Witness for claim C4: a region at epoch `(2, 2)` rejects a split command
carried at the stale epoch `(1, 2)`, and a run of one conf change keeps the
epoch non-decreasing. -/
theorem C4_epoch_monotone_and_stale_rejected_witness :
    Epoch.epochLt (Epoch.Message.mk ⟨1, 2⟩ 9 (some Epoch.AdminCmd.split)).epoch
        ⟨2, 2⟩ = true ∧
      Epoch.handle_msg ⟨2, 2⟩
          (Epoch.Message.mk ⟨1, 2⟩ 9 (some Epoch.AdminCmd.split)) =
        (Epoch.Outcome.rejectedEpoch, ⟨2, 2⟩) :=
  ⟨by decide,
    (C4_epoch_monotone_and_stale_rejected ⟨2, 2⟩
        (Epoch.Message.mk ⟨1, 2⟩ 9 (some Epoch.AdminCmd.split))
        [Epoch.Message.mk ⟨2, 2⟩ 0 (some Epoch.AdminCmd.confChange)]).1
      (by decide)⟩

/-- Point update reads back the written value at the written key. -/
theorem upd_same {A : Type} (f : Nat → A) (k : Nat) (v : A) :
    Sched.upd f k v k = v := by
  simp [Sched.upd]

/-- Point update leaves every other key unchanged. -/
theorem upd_other {A : Type} (f : Nat → A) (k : Nat) (v : A) (k2 : Nat)
    (h : k2 ≠ k) : Sched.upd f k v k2 = f k2 := by
  simp [Sched.upd, h]

/-- Claim C7: in every execution of the worker pool, no two workers hold the
FSM of the same region at the same time, and within one region the processed
history followed by the pending mailbox is exactly the enqueue order — tasks
are processed in the order they were enqueued. -/
theorem C7_worker_pool_mutex_and_fifo (s : Sched.PoolState)
    (h : Sched.Reachable s) : Sched.MutexInv s ∧ Sched.OrderInv s := by
  induction h with
  | start =>
    constructor
    · intro w1 w2 r h1 _
      exact Option.noConfusion h1
    · intro r
      rfl
  | @step s0 s2 _ hstep ih =>
    obtain ⟨ihm, iho⟩ := ih
    cases hstep with
    | enqueue r t =>
      refine ⟨ihm, fun r2 => ?_⟩
      show s0.processed r2 ++
            Sched.upd s0.mailbox r (s0.mailbox r ++ [t]) r2 =
          Sched.upd s0.enqueued r (s0.enqueued r ++ [t]) r2
      by_cases hr : r2 = r
      · subst hr
        rw [upd_same, upd_same, ← List.append_assoc, iho r2]
      · rw [upd_other _ _ _ _ hr, upd_other _ _ _ _ hr]
        exact iho r2
    | claim w r hfree hexcl =>
      refine ⟨?_, iho⟩
      intro w1 w2 r2 h1 h2
      have h1a : Sched.upd s0.holds w (some r) w1 = some r2 := h1
      have h2a : Sched.upd s0.holds w (some r) w2 = some r2 := h2
      by_cases hw1 : w1 = w
      · by_cases hw2 : w2 = w
        · rw [hw1, hw2]
        · subst hw1
          rw [upd_same] at h1a
          rw [upd_other _ _ _ _ hw2] at h2a
          cases Option.some.inj h1a
          exact absurd h2a (hexcl w2)
      · by_cases hw2 : w2 = w
        · subst hw2
          rw [upd_other _ _ _ _ hw1] at h1a
          rw [upd_same] at h2a
          cases Option.some.inj h2a
          exact absurd h1a (hexcl w1)
        · rw [upd_other _ _ _ _ hw1] at h1a
          rw [upd_other _ _ _ _ hw2] at h2a
          exact ihm w1 w2 r2 h1a h2a
    | process w r t rest hh hm =>
      refine ⟨ihm, fun r2 => ?_⟩
      show Sched.upd s0.processed r (s0.processed r ++ [t]) r2 ++
            Sched.upd s0.mailbox r rest r2 = s0.enqueued r2
      by_cases hr : r2 = r
      · subst hr
        rw [upd_same, upd_same, List.append_assoc, List.singleton_append,
          ← hm]
        exact iho r2
      · rw [upd_other _ _ _ _ hr, upd_other _ _ _ _ hr]
        exact iho r2
    | release w =>
      refine ⟨?_, iho⟩
      intro w1 w2 r2 h1 h2
      have h1a : Sched.upd s0.holds w none w1 = some r2 := h1
      have h2a : Sched.upd s0.holds w none w2 = some r2 := h2
      by_cases hw1 : w1 = w
      · subst hw1
        rw [upd_same] at h1a
        exact Option.noConfusion h1a
      · by_cases hw2 : w2 = w
        · subst hw2
          rw [upd_same] at h2a
          exact Option.noConfusion h2a
        · rw [upd_other _ _ _ _ hw1] at h1a
          rw [upd_other _ _ _ _ hw2] at h2a
          exact ihm w1 w2 r2 h1a h2a

/-- Witness for claim C7: the pool state in which worker 0 has claimed region
0 is reachable and satisfies both invariants. -/
theorem C7_worker_pool_mutex_and_fifo_witness :
    Sched.MutexInv
        { Sched.startPool with
          holds := Sched.upd Sched.startPool.holds 0 (some 0) } ∧
      Sched.OrderInv
        { Sched.startPool with
          holds := Sched.upd Sched.startPool.holds 0 (some 0) } :=
  C7_worker_pool_mutex_and_fifo _
    (Sched.Reachable.step Sched.Reachable.start
      (Sched.Step.claim Sched.startPool 0 0 rfl (fun _ h => nomatch h)))

/-- Releasing a block of sends covered by the current durable state keeps the
timeline covered. -/
theorem sendsCovered_sends_append (d : ReadyFlow.Durable)
    (msgs : List ReadyFlow.Msg) (evs : List ReadyFlow.Event)
    (hmsgs : ∀ m ∈ msgs, ReadyFlow.Covers d m)
    (hevs : ReadyFlow.SendsCovered d evs) :
    ReadyFlow.SendsCovered d (msgs.map ReadyFlow.Event.send ++ evs) := by
  induction msgs with
  | nil => exact hevs
  | cons m ms ih =>
    exact ⟨hmsgs m (List.mem_cons_self m ms),
      ih (fun m2 hm2 => hmsgs m2 (List.mem_cons_of_mem m hm2))⟩

/-- A well-formed execution produces a timeline whose every send is covered
by the durable state at its release. -/
theorem wf_sendsCovered (rds : List ReadyFlow.ReadyRec) :
    ∀ d : ReadyFlow.Durable, ReadyFlow.WFReadies d rds →
      ReadyFlow.SendsCovered d (ReadyFlow.trace rds) := by
  induction rds with
  | nil => intro d _; trivial
  | cons rd rds ih =>
    intro d hwf
    show ReadyFlow.SendsCovered d
      (ReadyFlow.Event.persist rd ::
        (rd.msgs.map ReadyFlow.Event.send ++ ReadyFlow.trace rds))
    show ReadyFlow.SendsCovered (ReadyFlow.append d rd)
      (rd.msgs.map ReadyFlow.Event.send ++ ReadyFlow.trace rds)
    exact sendsCovered_sends_append _ _ _ hwf.1 (ih _ hwf.2)

/-- In a covered timeline, the durable state accumulated over any prefix
covers the send that follows that prefix. -/
theorem sendsCovered_at_position (pre : List ReadyFlow.Event) :
    ∀ (d : ReadyFlow.Durable) (evs post : List ReadyFlow.Event)
      (m : ReadyFlow.Msg),
      ReadyFlow.SendsCovered d evs →
      evs = pre ++ ReadyFlow.Event.send m :: post →
      ReadyFlow.Covers (ReadyFlow.runEvents d pre) m := by
  induction pre with
  | nil =>
    intro d evs post m h heq
    subst heq
    exact h.1
  | cons e pre ih =>
    intro d evs post m h heq
    subst heq
    cases e with
    | persist rd =>
      have h2 : ReadyFlow.SendsCovered (ReadyFlow.append d rd)
          (pre ++ ReadyFlow.Event.send m :: post) := h
      exact ih (ReadyFlow.append d rd) _ post m h2 rfl
    | send m2 =>
      have h2 : ReadyFlow.Covers d m2 ∧ ReadyFlow.SendsCovered d
          (pre ++ ReadyFlow.Event.send m :: post) := h
      exact ih d _ post m h2.2 rfl

/-- Claim C3: in an execution processing well-formed ready batches, no
outbound message is released before the hard state and log entries it
references have been made durable by `append`: at every point of the timeline
where a message is released, its commit notification, term and carried
entries are already covered by the durable state accumulated so far. -/
theorem C3_persist_before_send (d0 : ReadyFlow.Durable)
    (rds : List ReadyFlow.ReadyRec) (pre post : List ReadyFlow.Event)
    (m : ReadyFlow.Msg) (hwf : ReadyFlow.WFReadies d0 rds)
    (hsplit : ReadyFlow.trace rds = pre ++ ReadyFlow.Event.send m :: post) :
    ReadyFlow.Covers (ReadyFlow.runEvents d0 pre) m :=
  sendsCovered_at_position pre d0 _ post m (wf_sendsCovered rds d0 hwf) hsplit

/-- Witness for claim C3: a leader persists entry 1 and its hard state with
commit index 1, then sends a message carrying that entry and commit
notification; at the release point the durable state covers the message. -/
theorem C3_persist_before_send_witness :
    ReadyFlow.WFReadies ⟨⟨1, 0, 0⟩, 0⟩
        [⟨⟨1, 0, 1⟩, [⟨1, 1⟩], [⟨1, 1, [⟨1, 1⟩]⟩]⟩] ∧
      ReadyFlow.trace [⟨⟨1, 0, 1⟩, [⟨1, 1⟩], [⟨1, 1, [⟨1, 1⟩]⟩]⟩] =
        [ReadyFlow.Event.persist ⟨⟨1, 0, 1⟩, [⟨1, 1⟩], [⟨1, 1, [⟨1, 1⟩]⟩]⟩] ++
          ReadyFlow.Event.send ⟨1, 1, [⟨1, 1⟩]⟩ :: [] ∧
      ReadyFlow.Covers
        (ReadyFlow.runEvents ⟨⟨1, 0, 0⟩, 0⟩
          [ReadyFlow.Event.persist ⟨⟨1, 0, 1⟩, [⟨1, 1⟩], [⟨1, 1, [⟨1, 1⟩]⟩]⟩])
        ⟨1, 1, [⟨1, 1⟩]⟩ :=
  ⟨by decide, by decide,
    C3_persist_before_send ⟨⟨1, 0, 0⟩, 0⟩
      [⟨⟨1, 0, 1⟩, [⟨1, 1⟩], [⟨1, 1, [⟨1, 1⟩]⟩]⟩]
      [ReadyFlow.Event.persist ⟨⟨1, 0, 1⟩, [⟨1, 1⟩], [⟨1, 1, [⟨1, 1⟩]⟩]⟩] []
      ⟨1, 1, [⟨1, 1⟩]⟩ (by decide) (by decide)⟩

/-- The merge loop body leaves the entry of every other tag unchanged. -/
theorem mergeOne_at_ne (decode : List Nat → String) (m : Meter.RecMap)
    (r : Meter.ResourceUsageRecord) (t : String)
    (h : decode r.resource_group_tag ≠ t) :
    Meter.mergeOne decode m r t = m t := by
  have h2 : ¬(t = decode r.resource_group_tag) := fun he => h he.symm
  simp [Meter.mergeOne, Meter.RecMap.update, h2]

/-- The merge loop body appends the lists of the record to the (possibly
fresh) entry of its decoded tag. -/
theorem mergeOne_at_eq (decode : List Nat → String) (m : Meter.RecMap)
    (r : Meter.ResourceUsageRecord) (t : String)
    (h : decode r.resource_group_tag = t) :
    Meter.mergeOne decode m r t =
      some (((m t).getD ([], [])).1 ++ r.record_list_timestamp_sec,
        ((m t).getD ([], [])).2 ++ r.record_list_cpu_time_ms) := by
  subst h
  simp [Meter.mergeOne, Meter.RecMap.update]

/-- Unfolding a field concatenation over a cons cell. -/
theorem catField_cons (sel : Meter.ResourceUsageRecord → List Nat)
    (decode : List Nat → String) (t : String)
    (r : Meter.ResourceUsageRecord) (rs : List Meter.ResourceUsageRecord) :
    Meter.catField sel decode t (r :: rs) =
      if decode r.resource_group_tag = t then
        sel r ++ Meter.catField sel decode t rs
      else Meter.catField sel decode t rs := by
  by_cases h : decode r.resource_group_tag = t
  · simp [Meter.catField, List.filter_cons, h]
  · simp [Meter.catField, List.filter_cons, h]

/-- A tag that occurs in no record contributes an empty concatenation. -/
theorem catField_of_not_mem (sel : Meter.ResourceUsageRecord → List Nat)
    (decode : List Nat → String) (t : String)
    (rs : List Meter.ResourceUsageRecord)
    (h : t ∉ rs.map (fun r => decode r.resource_group_tag)) :
    Meter.catField sel decode t rs = [] := by
  induction rs with
  | nil => rfl
  | cons r rs ih =>
    have h1 : decode r.resource_group_tag ≠ t := by
      intro he
      exact h (by simp [he])
    have h2 : t ∉ rs.map (fun r => decode r.resource_group_tag) := by
      intro hm
      exact h (by simp [hm])
    rw [catField_cons, if_neg h1, ih h2]

/-- `tsOf` over a cons cell. -/
theorem tsOf_cons (decode : List Nat → String) (t : String)
    (r : Meter.ResourceUsageRecord) (rs : List Meter.ResourceUsageRecord) :
    Meter.tsOf decode t (r :: rs) =
      if decode r.resource_group_tag = t then
        r.record_list_timestamp_sec ++ Meter.tsOf decode t rs
      else Meter.tsOf decode t rs :=
  catField_cons _ decode t r rs

/-- `cpuOf` over a cons cell. -/
theorem cpuOf_cons (decode : List Nat → String) (t : String)
    (r : Meter.ResourceUsageRecord) (rs : List Meter.ResourceUsageRecord) :
    Meter.cpuOf decode t (r :: rs) =
      if decode r.resource_group_tag = t then
        r.record_list_cpu_time_ms ++ Meter.cpuOf decode t rs
      else Meter.cpuOf decode t rs :=
  catField_cons _ decode t r rs

/-- `tsOf` of an absent tag is empty. -/
theorem tsOf_of_not_mem (decode : List Nat → String) (t : String)
    (rs : List Meter.ResourceUsageRecord)
    (h : t ∉ rs.map (fun r => decode r.resource_group_tag)) :
    Meter.tsOf decode t rs = [] :=
  catField_of_not_mem _ decode t rs h

/-- `cpuOf` of an absent tag is empty. -/
theorem cpuOf_of_not_mem (decode : List Nat → String) (t : String)
    (rs : List Meter.ResourceUsageRecord)
    (h : t ∉ rs.map (fun r => decode r.resource_group_tag)) :
    Meter.cpuOf decode t rs = [] :=
  catField_of_not_mem _ decode t rs h

/-- Claim C9: `TestSuite::merge_records(m, rs)` leaves every entry of `m`
whose tag does not occur (decoded) among `rs` unchanged, and for each tag
that does occur sets the entry to its prior contents (or two empty lists if
absent) with the timestamp and cpu-time lists of every record of `rs` with
that tag appended in input order. -/
theorem C9_merge_records_frame_and_effect (decode : List Nat → String)
    (m : Meter.RecMap) (rs : List Meter.ResourceUsageRecord) (t : String) :
    (t ∉ rs.map (fun r => decode r.resource_group_tag) →
      Meter.merge_records decode m rs t = m t) ∧
    (t ∈ rs.map (fun r => decode r.resource_group_tag) →
      Meter.merge_records decode m rs t =
        some (((m t).getD ([], [])).1 ++ Meter.tsOf decode t rs,
          ((m t).getD ([], [])).2 ++ Meter.cpuOf decode t rs)) := by
  induction rs generalizing m with
  | nil =>
    refine ⟨fun _ => rfl, fun h => absurd h (by simp)⟩
  | cons r rs ih =>
    constructor
    · intro hnot
      have h1 : decode r.resource_group_tag ≠ t := by
        intro he
        exact hnot (by simp [he])
      have h2 : t ∉ rs.map (fun r => decode r.resource_group_tag) := by
        intro hm
        exact hnot (by simp [hm])
      show Meter.merge_records decode (Meter.mergeOne decode m r) rs t = m t
      rw [(ih (Meter.mergeOne decode m r)).1 h2,
        mergeOne_at_ne decode m r t h1]
    · intro hmem
      show Meter.merge_records decode (Meter.mergeOne decode m r) rs t = _
      by_cases hr : decode r.resource_group_tag = t
      · by_cases hmem2 : t ∈ rs.map (fun r => decode r.resource_group_tag)
        · rw [(ih (Meter.mergeOne decode m r)).2 hmem2,
            mergeOne_at_eq decode m r t hr]
          simp only [Option.getD_some]
          rw [tsOf_cons, cpuOf_cons, if_pos hr, if_pos hr,
            List.append_assoc, List.append_assoc]
        · rw [(ih (Meter.mergeOne decode m r)).1 hmem2,
            mergeOne_at_eq decode m r t hr,
            tsOf_cons, cpuOf_cons, if_pos hr, if_pos hr,
            tsOf_of_not_mem decode t rs hmem2,
            cpuOf_of_not_mem decode t rs hmem2,
            List.append_nil, List.append_nil]
      · have hmem2 : t ∈ rs.map (fun r => decode r.resource_group_tag) := by
          rw [List.map_cons] at hmem
          rcases List.mem_cons.mp hmem with he | hm
          · exact absurd he.symm hr
          · exact hm
        rw [(ih (Meter.mergeOne decode m r)).2 hmem2,
          mergeOne_at_ne decode m r t hr,
          tsOf_cons, cpuOf_cons, if_neg hr, if_neg hr]

/-- Witness for claim C9: merging one record tagged (decoded) `a` into the
empty map puts its lists under `a`. -/
theorem C9_merge_records_frame_and_effect_witness :
    ("a" ∈ [Meter.ResourceUsageRecord.mk [97] [1, 2] [3]].map
        (fun r => (fun _ : List Nat => "a") r.resource_group_tag)) ∧
      Meter.merge_records (fun _ : List Nat => "a") Meter.RecMap.empty
          [Meter.ResourceUsageRecord.mk [97] [1, 2] [3]] "a" =
        some (((Meter.RecMap.empty "a").getD ([], [])).1 ++
            Meter.tsOf (fun _ : List Nat => "a") "a"
              [Meter.ResourceUsageRecord.mk [97] [1, 2] [3]],
          ((Meter.RecMap.empty "a").getD ([], [])).2 ++
            Meter.cpuOf (fun _ : List Nat => "a") "a"
              [Meter.ResourceUsageRecord.mk [97] [1, 2] [3]]) :=
  ⟨by simp,
    (C9_merge_records_frame_and_effect (fun _ : List Nat => "a")
        Meter.RecMap.empty [Meter.ResourceUsageRecord.mk [97] [1, 2] [3]]
        "a").2 (by simp)⟩
